import Mathlib

/-!
Verification of the csv2sav SAV encoder and schema inferer.

The definitions below are a shallow embedding of the Rust sources
`src-tauri/src/sav_writer.rs`, `src-tauri/src/schema.rs` and (one check of)
`src-tauri/src/readstat_writer.rs`.  Byte streams are modelled as `List ℕ`
(each element a byte value), machine doubles by an explicit IEEE-754
binary64 model `F64` over `ℚ`, and the writer's sink by an in-memory byte
list (as in the repository's own unit tests, which write into a `Vec<u8>`).
-/

set_option maxRecDepth 4000

namespace Csv2Sav

/-! ## IEEE-754 binary64 model

The Rust code computes with hardware `f64`.  We model an `f64` value as
either a NaN, an infinity, or a finite value carried as an exact rational.
Arithmetic on finite values is exact rational arithmetic followed by
correct rounding to 53 significant bits (round to nearest, ties to even),
which is precisely the IEEE-754 semantics of hardware doubles.  NaN payload
bits and the sign of zero are not distinguished; neither is observable in
the code under verification.
-/

inductive F64 where
  | nan
  | posInf
  | negInf
  | finite (q : ℚ)
deriving DecidableEq

/-- Kernel-computable addition on `ℚ` (the library `Rat.add` is sealed
against reduction); proved equal to `· + ·` in `qAdd_eq` below. -/
def qAdd (a b : ℚ) : ℚ := mkRat (a.num * (b.den : ℤ) + b.num * (a.den : ℤ)) (a.den * b.den)

/-- Kernel-computable subtraction on `ℚ`; proved equal to `· - ·` in
`qSub_eq` below. -/
def qSub (a b : ℚ) : ℚ := mkRat (a.num * (b.den : ℤ) - b.num * (a.den : ℤ)) (a.den * b.den)

/-- Number of bits of `n` (`0` for `0`), computed with explicit fuel so that
it reduces in the kernel.  The fuel covers every magnitude reachable from
binary64 values (numerators and denominators below `2 ^ 4200`). -/
def bitLenAux : ℕ → ℕ → ℕ
  | 0, _ => 0
  | fuel + 1, n => if n = 0 then 0 else bitLenAux fuel (n / 2) + 1

/-- Bit length of a natural number: `bitLen n = ⌊log2 n⌋ + 1` for `n ≥ 1`. -/
def bitLen (n : ℕ) : ℕ := bitLenAux 4200 n

/-- Round `a / b` (with `b > 0`) to the nearest integer, ties to even. -/
def rndNE (a b : ℤ) : ℤ :=
  let n := a / b
  let r := a % b
  if 2 * r < b then n
  else if b < 2 * r then n + 1
  else if n % 2 = 0 then n else n + 1

/-- Round `(a / b) / 2 ^ e` to the nearest integer, ties to even
(`a, b : ℤ`, `b > 0`). -/
def scaleRnd (a b : ℤ) (e : ℤ) : ℤ :=
  if 0 ≤ e then rndNE a (b * ((2 ^ e.toNat : ℕ) : ℤ))
  else rndNE (a * ((2 ^ (-e).toNat : ℕ) : ℤ)) b

/-- Search (with fuel) for the binary64 exponent at which the significand of
`a / b` fits: returns `(m, e)` with `m = rndNE ((a/b) / 2^e)` and
`2^52 ≤ m < 2^53` (normal) or `e = -1074` (subnormal).  Each iteration
re-rounds the original value, so no double rounding occurs. -/
def fitLoop : ℕ → ℤ → ℤ → ℤ → ℤ × ℤ
  | 0, a, b, e => (scaleRnd a b e, e)
  | fuel + 1, a, b, e =>
    let m := scaleRnd a b e
    if ((2 ^ 53 : ℕ) : ℤ) ≤ m then fitLoop fuel a b (e + 1)
    else if m < ((2 ^ 52 : ℕ) : ℤ) ∧ -1074 < e then fitLoop fuel a b (e - 1)
    else (m, e)

/-- The rational value `m * 2 ^ e`. -/
def qOfScaled (m : ℤ) (e : ℤ) : ℚ :=
  if 0 ≤ e then ((m * ((2 ^ e.toNat : ℕ) : ℤ) : ℤ) : ℚ)
  else mkRat m (2 ^ (-e).toNat)

/-- Correctly round a positive rational to binary64
(round to nearest, ties to even; overflow to `+∞`). -/
def roundPosQ (q : ℚ) : F64 :=
  let a := q.num
  let b : ℤ := (q.den : ℤ)
  let e0 : ℤ := max ((bitLen q.num.natAbs : ℤ) - (bitLen q.den : ℤ) - 52) (-1074)
  let me := fitLoop 110 a b e0
  let v := qOfScaled me.1 me.2
  if (((2 ^ 1024 : ℕ) : ℤ) : ℚ) ≤ v then F64.posInf else F64.finite v

/-- Correctly round any rational to binary64. -/
def roundF64 (q : ℚ) : F64 :=
  if q = 0 then F64.finite 0
  else if 0 < q then roundPosQ q
  else
    match roundPosQ (-q) with
    | F64.posInf => F64.negInf
    | F64.finite r => F64.finite (-r)
    | F64.negInf => F64.negInf
    | F64.nan => F64.nan

/-- IEEE-754 binary64 addition (model of Rust `f64 +`). -/
def addF64 : F64 → F64 → F64
  | F64.nan, _ => F64.nan
  | _, F64.nan => F64.nan
  | F64.posInf, F64.negInf => F64.nan
  | F64.negInf, F64.posInf => F64.nan
  | F64.posInf, _ => F64.posInf
  | _, F64.posInf => F64.posInf
  | F64.negInf, _ => F64.negInf
  | _, F64.negInf => F64.negInf
  | F64.finite a, F64.finite b => roundF64 (qAdd a b)

/-- Truncate a rational toward zero (integer part). -/
def ratTrunc (q : ℚ) : ℤ :=
  if 0 ≤ q.num then q.num / (q.den : ℤ)
  else - ((- q.num) / (q.den : ℤ))

/-- Model of Rust `f64::fract` (`x - x.trunc()`; `NaN` on non-finite input).
For every value actually representable in binary64 the subtraction
`x - x.trunc()` is exact, so exact rational subtraction is faithful. -/
def fractF64 : F64 → F64
  | F64.nan => F64.nan
  | F64.posInf => F64.nan
  | F64.negInf => F64.nan
  | F64.finite q => F64.finite (qSub q ((ratTrunc q : ℤ) : ℚ))

/-- Model of the Rust `f64` comparison `<=` (false on NaN). -/
def fle : F64 → F64 → Bool
  | F64.nan, _ => false
  | _, F64.nan => false
  | F64.negInf, _ => true
  | _, F64.negInf => false
  | _, F64.posInf => true
  | F64.posInf, _ => false
  | F64.finite a, F64.finite b => decide (a ≤ b)

/-- Model of the Rust `f64` comparison `>=` (false on NaN). -/
def fge (x y : F64) : Bool := fle y x

/-- Model of the Rust `f64` comparison `==` (false on NaN, also reflexively). -/
def feq : F64 → F64 → Bool
  | F64.finite a, F64.finite b => decide (a = b)
  | F64.posInf, F64.posInf => true
  | F64.negInf, F64.negInf => true
  | _, _ => false

/-- Model of the Rust saturating cast `x as u8` on `f64`
(truncate toward zero, clamp to `[0, 255]`, NaN to 0). -/
def toU8Sat : F64 → ℕ
  | F64.nan => 0
  | F64.posInf => 255
  | F64.negInf => 0
  | F64.finite q =>
    let t := ratTrunc q
    if t < 0 then 0 else if (255 : ℤ) < t then 255 else t.toNat

/-! ## SAV writer (embedding of `src-tauri/src/sav_writer.rs`)

Byte streams are `List ℕ`.  Rust strings that reach the writer are modelled
by their byte sequences (`List ℕ`), matching the `as_bytes` views the code
takes.  The writer's sink (`W: Write`) is modelled by the in-memory byte
list `out`, as in the repository's unit tests (`Vec<u8>` sink), so sink
writes cannot fail; `io::Result` therefore has no error case to model.

The IEEE-754 little-endian byte encoding of a double
(`f64::to_le_bytes`) is kept abstract: writer functions that emit a raw
numeric payload take it as an explicit parameter
`enc : F64 → List ℕ`. -/

/-- `ColType` of `sav_writer.rs` (string width is a `u16`). -/
inductive SavColType where
  | numeric
  | string (w : ℕ)
deriving DecidableEq

/-- `ColDef` of `sav_writer.rs`; `name` and `label` are byte strings. -/
structure ColDef where
  name : List ℕ
  label : List ℕ
  col_type : SavColType
deriving DecidableEq

/-- `Value` of `sav_writer.rs`. -/
inductive WValue where
  | number (n : Option F64)
  | str (bytes : List ℕ)

/-- `fn col_segments`: number of 8-byte segments a column occupies. -/
def col_segments : SavColType → ℕ
  | SavColType.numeric => 1
  | SavColType.string w => (w + 7) / 8

/-- Mutable state of `SavWriter`: the sink (`out`, holding the bytes written
after the dictionary), the pending opcodes and the pending raw payloads.
The Rust `opcode_buf : [u8; 8]` plus `opcode_count` pair is modelled by the
list of the `opcode_count` opcodes written so far; the remaining array slots
hold the zero bytes left by the last reset and appear as explicit padding
when the block is flushed. -/
structure SavSt where
  out : List ℕ
  opcodeBuf : List ℕ
  rawBuf : List ℕ
deriving DecidableEq

/-- The initial data-section state: empty sink, empty buffers. -/
def initSt : SavSt := ⟨[], [], []⟩

/-- One call of the two emission primitives `push_opcode` / `push_raw`. -/
inductive Push where
  | opc (b : ℕ)
  | raw (payload : List ℕ)
deriving DecidableEq

/-- `fn flush_opcodes`: write the 8-byte opcode block (pending opcodes plus
the zero bytes remaining in the array), then the queued raw payloads, then
clear both buffers. -/
def flush_opcodes (st : SavSt) : SavSt :=
  { out := st.out ++ ((st.opcodeBuf ++ List.replicate (8 - st.opcodeBuf.length) 0) ++ st.rawBuf)
    opcodeBuf := []
    rawBuf := [] }

/-- `fn push_opcode`. -/
def push_opcode (st : SavSt) (op : ℕ) : SavSt :=
  let st' : SavSt := { st with opcodeBuf := st.opcodeBuf ++ [op] }
  if st'.opcodeBuf.length = 8 then flush_opcodes st' else st'

/-- `fn push_raw` (opcode 0 = OP_RAW, payload queued). -/
def push_raw (st : SavSt) (data : List ℕ) : SavSt :=
  let st' : SavSt := { st with opcodeBuf := st.opcodeBuf ++ [0], rawBuf := st.rawBuf ++ data }
  if st'.opcodeBuf.length = 8 then flush_opcodes st' else st'

/-- Apply one emission primitive. -/
def applyPush (st : SavSt) : Push → SavSt
  | Push.opc b => push_opcode st b
  | Push.raw d => push_raw st d

/-- Apply a sequence of emission primitives. -/
def runPushes (st : SavSt) : List Push → SavSt
  | [] => st
  | p :: ps => runPushes (applyPush st p) ps

/-- The branch condition of `fn push_numeric`:
`shifted >= 1.0 && shifted <= 251.0 && shifted.fract() == 0.0`
(binary64 comparisons). -/
def shiftCond (shifted : F64) : Bool :=
  fge shifted (F64.finite 1) && fle shifted (F64.finite 251)
    && feq (fractF64 shifted) (F64.finite 0)

/-- The primitive selected by `fn push_numeric` for a value: OP_SYSMIS (255)
for `None`; for `Some n`, the inline opcode `(n + BIAS) as u8` when
`n + BIAS` is at least 1.0, at most 251.0 and has zero fractional part
(all computed in binary64), and otherwise OP_RAW with `n.to_le_bytes()`. -/
def numericPush (enc : F64 → List ℕ) : Option F64 → Push
  | none => Push.opc 255
  | some n =>
    let shifted := addF64 n (F64.finite 100)
    if shiftCond shifted then Push.opc (toU8Sat shifted)
    else Push.raw (enc n)

/-- `fn push_numeric`. -/
def push_numeric (enc : F64 → List ℕ) (st : SavSt) (opt : Option F64) : SavSt :=
  applyPush st (numericPush enc opt)

/-- The primitive selected by `fn push_string_chunk` for an (at most 8 byte)
chunk: OP_SPACES (254) if every byte is an ASCII space, otherwise OP_RAW
with the chunk padded to 8 bytes with spaces. -/
def stringChunkPush (chunk : List ℕ) : Push :=
  if chunk.all (fun b => b == 32) then Push.opc 254
  else Push.raw (chunk ++ List.replicate (8 - chunk.length) 32)

/-- `fn push_string_chunk`. -/
def push_string_chunk (st : SavSt) (chunk : List ℕ) : SavSt :=
  applyPush st (stringChunkPush chunk)

/-- Split a list into chunks of 8 (Rust `buf.chunks(8)`). -/
def chunks8 : List α → List (List α)
  | [] => []
  | a :: as => (a :: as).take 8 :: chunks8 ((a :: as).drop 8)
termination_by l => l.length
decreasing_by simp; omega

/-- The space-filled row buffer built by `write_row` for a string column of
width `w`: `⌈w/8⌉ × 8` spaces with the first `min (length bytes) w` input
bytes copied over them (`buf[..copy_len].copy_from_slice(..)`). -/
def strBuffer (w : ℕ) (bytes : List ℕ) : List ℕ :=
  let total := col_segments (SavColType.string w) * 8
  let copyLen := min bytes.length w
  bytes.take copyLen ++ List.replicate (total - copyLen) 32

/-- One `write_row` loop iteration: the statements executed for one
(column type, value) pair. -/
def writeRowStep (enc : F64 → List ℕ) (st : SavSt) : SavColType × WValue → SavSt
  | (SavColType.numeric, WValue.number opt) => push_numeric enc st opt
  | (SavColType.string w, WValue.str bytes) =>
    (chunks8 (strBuffer w bytes)).foldl push_string_chunk st
  | (SavColType.numeric, WValue.str _) => push_numeric enc st none
  | (SavColType.string w, WValue.number _) =>
    (List.range (col_segments (SavColType.string w))).foldl (fun s _ => push_opcode s 254) st

/-- `fn write_row`: iterate over `cols.zip(values)` (the iterator stops at
the shorter of the two lists). -/
def write_row (enc : F64 → List ℕ) (cols : List ColDef) (st : SavSt) (values : List WValue) :
    SavSt :=
  ((cols.map (fun c => c.col_type)).zip values).foldl (writeRowStep enc) st

/-- `fn finish`: flush a partially filled opcode block, then flush the sink
(a no-op for the in-memory sink). -/
def finishSt (st : SavSt) : SavSt :=
  if 0 < st.opcodeBuf.length then flush_opcodes st else st

/-- The emission primitives produced by one `write_row` loop iteration,
as a pure list. -/
def valuePushes (enc : F64 → List ℕ) : SavColType × WValue → List Push
  | (SavColType.numeric, WValue.number opt) => [numericPush enc opt]
  | (SavColType.string w, WValue.str bytes) =>
    (chunks8 (strBuffer w bytes)).map stringChunkPush
  | (SavColType.numeric, WValue.str _) => [numericPush enc none]
  | (SavColType.string w, WValue.number _) =>
    (List.range (col_segments (SavColType.string w))).map (fun _ => Push.opc 254)

/-- Concatenated map (used instead of the library `flatMap`). -/
def catMap (f : α → List β) : List α → List β
  | [] => []
  | a :: as => f a ++ catMap f as

/-- All emission primitives produced by one `write_row` call. -/
def rowPushes (enc : F64 → List ℕ) (cols : List ColDef) (values : List WValue) : List Push :=
  catMap (valuePushes enc) ((cols.map (fun c => c.col_type)).zip values)

/-- The opcode byte a primitive stores in the opcode block
(OP_RAW = 0 for raw pushes). -/
def pushByte : Push → ℕ
  | Push.opc b => b
  | Push.raw _ => 0

/-- The raw payload a primitive queues (empty for plain opcodes). -/
def pushPayload : Push → List ℕ
  | Push.opc _ => []
  | Push.raw d => d

/-- The bytes of one data block: the 8-byte opcode block (zero padded),
followed by the raw payloads of its OP_RAW opcodes in emission order. -/
def renderBlock (ps : List Push) : List ℕ :=
  (ps.map pushByte ++ List.replicate (8 - ps.length) 0) ++ catMap pushPayload ps

/-- The layout of the whole data section for a sequence of primitives. -/
def renderBlocks (ps : List Push) : List ℕ := catMap renderBlock (chunks8 ps)

/-! ### Dictionary layout (`write_header`, `write_variable_records`,
`write_dict_terminator`) -/

/-- Rust `usize as i32` (two's-complement wrap to 32 bits). -/
def castI32 (u : ℕ) : ℤ :=
  if u % 2 ^ 32 < 2 ^ 31 then ((u % 2 ^ 32 : ℕ) : ℤ) else ((u % 2 ^ 32 : ℕ) : ℤ) - 2 ^ 32

/-- `fn write_le_i32`: the 4 little-endian bytes of an `i32` value. -/
def write_le_i32 (v : ℤ) : List ℕ :=
  let u := (v % (2 ^ 32 : ℤ)).toNat
  [u % 256, u / 256 % 256, u / 2 ^ 16 % 256, u / 2 ^ 24 % 256]

/-- Read back a little-endian `i32` at byte offset `off`. -/
def readLeI32 (bs : List ℕ) (off : ℕ) : ℤ :=
  let u : ℕ := bs.getD off 0 + 256 * bs.getD (off + 1) 0 + 2 ^ 16 * bs.getD (off + 2) 0
    + 2 ^ 24 * bs.getD (off + 3) 0
  if u < 2 ^ 31 then (u : ℤ) else (u : ℤ) - 2 ^ 32

/-- `fn write_padded`: the first `len` bytes of `s`, space-padded to `len`. -/
def write_padded (s : List ℕ) (len : ℕ) : List ℕ :=
  let copy := min s.length len
  s.take copy ++ List.replicate (len - copy) 32

/-- ASCII bytes of a Lean string literal (all strings written by
`write_header` are ASCII, where this agrees with Rust `str::as_bytes`). -/
def asciiBytes (s : String) : List ℕ := s.data.map Char.toNat

/-- Header bytes before the `nominal_case_size` field: magic, product name,
`layout_code` (offsets 0–67). -/
def headerPrefix : List ℕ :=
  asciiBytes "$FL2" ++ (write_padded (asciiBytes "@(#) SPSS DATA FILE csv2sav") 60
    ++ write_le_i32 2)

/-- Header bytes after the `nominal_case_size` field: compression,
weight index, `ncases = -1`, bias `100.0` (IEEE-754 little-endian bytes of
`100.0 : f64` are `00 00 00 00 00 00 59 40`), creation date and time, file
label, padding (offsets 72–175). -/
def headerSuffix : List ℕ :=
  write_le_i32 1 ++ (write_le_i32 0 ++ (write_le_i32 (-1)
    ++ ([0, 0, 0, 0, 0, 0, 89, 64]
    ++ (write_padded (asciiBytes "01 Jan 70") 9 ++ (write_padded (asciiBytes "00:00:00") 8
    ++ (write_padded [] 64 ++ [0, 0, 0]))))))

/-- `fn write_header`. -/
def write_header (row_width : ℕ) : List ℕ :=
  headerPrefix ++ (write_le_i32 (castI32 row_width) ++ headerSuffix)

/-- `fn encode_format`: packed print/write format
(`(type_code << 16) | (width << 8) | decimals`, disjoint bit fields). -/
def encode_format : SavColType → ℤ
  | SavColType.numeric => 5 * 2 ^ 16 + 8 * 2 ^ 8 + 2
  | SavColType.string w => 1 * 2 ^ 16 + ((min w 255 : ℕ) : ℤ) * 2 ^ 8

/-- The variable record(s) of one column (primary record, optional label,
continuation records for long strings), from `fn write_variable_records`. -/
def var_record (c : ColDef) : List ℕ :=
  let segments := col_segments c.col_type
  let typeCode : ℤ := match c.col_type with
    | SavColType.numeric => 0
    | SavColType.string w => (w : ℤ)
  let hasLabel : ℤ := if c.label.isEmpty then 0 else 1
  write_le_i32 2 ++ (write_le_i32 typeCode ++ (write_le_i32 hasLabel ++ (write_le_i32 0
    ++ (write_le_i32 (encode_format c.col_type) ++ (write_le_i32 (encode_format c.col_type)
    ++ (write_padded c.name 8
    ++ ((if c.label.isEmpty then [] else
          let labelLen := min c.label.length 255
          write_le_i32 (labelLen : ℤ) ++ (c.label.take labelLen
            ++ List.replicate ((4 - labelLen % 4) % 4) 0))
    ++ catMap (fun _ => write_le_i32 2 ++ (write_le_i32 (-1) ++ (write_le_i32 0
          ++ (write_le_i32 0 ++ (write_le_i32 0 ++ (write_le_i32 0
          ++ write_padded (asciiBytes "        ") 8))))))
        (List.range (segments - 1)))))))))

/-- `fn write_dict_terminator`: record type 999, filler 0. -/
def dict_terminator : List ℕ := write_le_i32 999 ++ write_le_i32 0

/-- The `row_width` computed by `SavWriter::new`: sum of the columns'
segment counts. -/
def row_width (cols : List ColDef) : ℕ :=
  ((cols.map (fun c => col_segments c.col_type)).foldl (· + ·) 0)

/-- All bytes written by `SavWriter::new`: header, variable records,
dictionary terminator. -/
def new_file_bytes (cols : List ColDef) : List ℕ :=
  write_header (row_width cols) ++ (catMap var_record cols ++ dict_terminator)

/-! ## Schema inference (embedding of `src-tauri/src/schema.rs`)

The single external dependency of `ColInfo::observe` is Rust's
`str::parse::<f64>`; it is kept abstract as a parameter
`p : String → Bool` (`p s = true` iff the parse succeeds).  Rust
`str::trim` removes leading and trailing whitespace; `rustTrim` below does
the same using `Char.isWhitespace` (the ASCII whitespace class; Rust also
strips some exotic Unicode whitespace, which no claim depends on). -/

/-- `MAX_STRING_WIDTH` of `schema.rs`. -/
def MAX_STRING_WIDTH : ℕ := 32767

/-- `ColType` of `schema.rs` (string width is a `usize`). -/
inductive SchColType where
  | numeric
  | string (w : ℕ)
deriving DecidableEq

/-- Model of Rust `str::trim`. -/
def rustTrim (s : String) : String :=
  ⟨((s.data.dropWhile Char.isWhitespace).reverse.dropWhile Char.isWhitespace).reverse⟩

/-- `ColInfo` of `schema.rs`. -/
structure ColInfo where
  is_numeric : Bool
  max_byte_len : ℕ
deriving DecidableEq

/-- `ColInfo::new`. -/
def ColInfo.new : ColInfo := ⟨true, 0⟩

/-- `ColInfo::observe` (`p` models `str::parse::<f64>().is_ok()`;
`trimmed.len()` is the UTF-8 byte length). -/
def ColInfo.observe (p : String → Bool) (info : ColInfo) (value : String) : ColInfo :=
  let trimmed := rustTrim value
  if trimmed.data.isEmpty then info
  else
    let isNum := if info.is_numeric && !p trimmed then false else info.is_numeric
    let byteLen := trimmed.utf8ByteSize
    let maxLen := if info.max_byte_len < byteLen then byteLen else info.max_byte_len
    ⟨isNum, maxLen⟩

/-- `ColInfo::col_type`. -/
def ColInfo.col_type (info : ColInfo) : SchColType :=
  if info.is_numeric then SchColType.numeric
  else SchColType.string (min (max info.max_byte_len 1) MAX_STRING_WIDTH)

/-- The per-record update of `infer_schema`'s sampling loop: observe each
field into the `ColInfo` of the same index; fields beyond the header arity
are ignored, columns with no field in this record are unchanged. -/
def observeRecord (p : String → Bool) : List ColInfo → List String → List ColInfo
  | [], _ => []
  | infos, [] => infos
  | info :: infos, f :: fs => ColInfo.observe p info f :: observeRecord p infos fs

/-- The sampling loop of `infer_schema` (lines 89–107): for each record,
count it, observe its fields, and stop when `sample_rows <= sampled_rows`
(the check runs after the record has been observed).  Returns the final
`ColInfo`s and the number of records observed.  Cancellation and CSV read
errors are outside the claims and are not modelled (no cancellation, no
read errors). -/
def inferLoop (p : String → Bool) (sample : ℕ) :
    List (List String) → ℕ → List ColInfo → List ColInfo × ℕ
  | [], n, infos => (infos, n)
  | r :: rs, n, infos =>
    let infos2 := observeRecord p infos r
    let n2 := n + 1
    if sample ≤ n2 then (infos2, n2) else inferLoop p sample rs n2 infos2

/-- The `truncated_cols` computation of `infer_schema` (lines 109–114). -/
def truncated_cols (headers : List String) (infos : List ColInfo) : List String :=
  (((headers.zip infos).filter
      (fun hi => !hi.2.is_numeric && decide (MAX_STRING_WIDTH < hi.2.max_byte_len))).map
    (fun hi => hi.1))

/-- The `ColInfo`s produced by `infer_schema` for given headers and records:
one fresh `ColInfo` per header, then the sampling loop. -/
def inferInfos (p : String → Bool) (sample : ℕ) (headers : List String)
    (records : List (List String)) : List ColInfo × ℕ :=
  inferLoop p sample records 0 (List.replicate headers.length ColInfo.new)

/-! ## ReadStat writer arity check
(embedding of `src-tauri/src/readstat_writer.rs`, lines 171–178) -/

/-- `Writer::write_row` of `readstat_writer.rs` begins with an arity check
and otherwise hands each value to the external ReadStat C library
(`readstat_begin_row` / `readstat_insert_*` / `readstat_end_row`); those
FFI calls are outside the repository and are modelled as succeeding. -/
def rs_write_row (var_count : ℕ) (values : List α) : Except String Unit :=
  if values.length ≠ var_count then
    Except.error ("Expected " ++ toString var_count ++ " values, got "
      ++ toString values.length)
  else Except.ok ()

/-! ## Spec-side decoding rules and concrete instances used by the
theorems below -/

/-- The reader's decoding of one numeric-cell primitive, as the spec states
it: an opcode byte `b ∈ [1, 251]` denotes the value `b − 100`; OP_RAW
denotes `f64::from_le_bytes` of its payload (the byte decoder is the
abstract parameter `dec`); OP_SYSMIS / OP_SPACES denote no numeric value. -/
def decode_push (dec : List ℕ → F64) : Push → Option F64
  | Push.opc b => if 1 ≤ b ∧ b ≤ 251 then some (F64.finite (mkRat ((b : ℤ) - 100) 1)) else none
  | Push.raw payload => some (dec payload)

/-- A writer state reconstructed from the primitives pushed since the last
flush: their opcode bytes are the pending opcode buffer, their payloads the
pending raw queue. -/
def stOf (o : List ℕ) (pending : List Push) : SavSt :=
  ⟨o, pending.map pushByte, catMap pushPayload pending⟩

/-- `1 + 2⁻⁵²`, the binary64 successor of `1.0`: a representable double
whose shift by `BIAS = 100` rounds. -/
def epsNum : ℚ := mkRat 4503599627370497 4503599627370496

/-- A 32768-byte field consisting of ASCII digits `1`; it parses as an
`f64` in Rust (overflowing to `+∞`, which `str::parse` accepts). -/
def longDigits : String := ⟨List.replicate 32768 '1'⟩

/-! ## Helper lemmas -/

theorem qAdd_eq (a b : ℚ) : qAdd a b = a + b := by
  have ha : ((a.den : ℚ)) ≠ 0 := Nat.cast_ne_zero.mpr a.den_nz
  have hb : ((b.den : ℚ)) ≠ 0 := Nat.cast_ne_zero.mpr b.den_nz
  rw [qAdd, Rat.mkRat_eq_div]
  conv_rhs => rw [← Rat.num_div_den a, ← Rat.num_div_den b]
  rw [div_add_div _ _ ha hb]
  push_cast
  ring_nf

theorem qSub_eq (a b : ℚ) : qSub a b = a - b := by
  have ha : ((a.den : ℚ)) ≠ 0 := Nat.cast_ne_zero.mpr a.den_nz
  have hb : ((b.den : ℚ)) ≠ 0 := Nat.cast_ne_zero.mpr b.den_nz
  rw [qSub, Rat.mkRat_eq_div]
  conv_rhs => rw [← Rat.num_div_den a, ← Rat.num_div_den b]
  rw [div_sub_div _ _ ha hb]
  push_cast
  ring_nf

theorem catMap_append (f : α → List β) (xs ys : List α) :
    catMap f (xs ++ ys) = catMap f xs ++ catMap f ys := by
  induction xs with
  | nil => simp [catMap]
  | cons a as ih => simp [catMap, ih]

theorem runPushes_append (st : SavSt) (xs ys : List Push) :
    runPushes st (xs ++ ys) = runPushes (runPushes st xs) ys := by
  induction xs generalizing st with
  | nil => simp [runPushes]
  | cons p ps ih => simp [runPushes, ih]

theorem chunks8_nil : chunks8 ([] : List α) = [] := by rw [chunks8]

theorem chunks8_short (l : List α) (h0 : l ≠ []) (h8 : l.length ≤ 8) : chunks8 l = [l] := by
  cases l with
  | nil => exact absurd rfl h0
  | cons a as =>
    rw [chunks8]
    rw [List.take_of_length_le h8, List.drop_eq_nil_of_le h8, chunks8_nil]

theorem chunks8_cons8 (l rest : List α) (h : l.length = 8) :
    chunks8 (l ++ rest) = l :: chunks8 rest := by
  cases l with
  | nil => simp at h
  | cons a as =>
    rw [List.cons_append, chunks8, ← List.cons_append]
    rw [List.take_left' h, List.drop_left' h]

theorem renderBlocks_nil : renderBlocks [] = [] := by
  rw [renderBlocks, chunks8_nil]
  rfl

theorem renderBlocks_short (ps : List Push) (h0 : ps ≠ []) (h8 : ps.length ≤ 8) :
    renderBlocks ps = renderBlock ps := by
  rw [renderBlocks, chunks8_short ps h0 h8]
  simp [catMap]

theorem renderBlocks_cons8 (ps rest : List Push) (h : ps.length = 8) :
    renderBlocks (ps ++ rest) = renderBlock ps ++ renderBlocks rest := by
  rw [renderBlocks, chunks8_cons8 ps rest h, renderBlocks]
  simp [catMap]

theorem applyPush_stOf (o : List ℕ) (pending : List Push) (pch : Push) :
    applyPush (stOf o pending) pch =
      if pending.length + 1 = 8 then stOf (o ++ renderBlock (pending ++ [pch])) []
      else stOf o (pending ++ [pch]) := by
  have hb : ∀ q : Push, pushPayload (Push.opc (pushByte q)) = [] := fun _ => rfl
  cases pch with
  | opc b =>
    by_cases hlen : pending.length + 1 = 8
    · rw [if_pos hlen]
      simp only [applyPush, push_opcode, stOf]
      rw [if_pos (by simp [hlen])]
      simp [flush_opcodes, renderBlock, catMap_append, catMap, pushByte, pushPayload, hlen]
    · rw [if_neg hlen]
      simp only [applyPush, push_opcode, stOf]
      rw [if_neg (by simp; omega)]
      simp [catMap_append, catMap, pushByte, pushPayload]
  | raw d =>
    by_cases hlen : pending.length + 1 = 8
    · rw [if_pos hlen]
      simp only [applyPush, push_raw, stOf]
      rw [if_pos (by simp [hlen])]
      simp [flush_opcodes, renderBlock, catMap_append, catMap, pushByte, pushPayload, hlen]
    · rw [if_neg hlen]
      simp only [applyPush, push_raw, stOf]
      rw [if_neg (by simp; omega)]
      simp [catMap_append, catMap, pushByte, pushPayload]

theorem finishSt_stOf (o : List ℕ) (pending : List Push) (h8 : pending.length ≤ 8) :
    (finishSt (stOf o pending)).out = o ++ renderBlocks pending := by
  cases pending with
  | nil => simp [finishSt, stOf, renderBlocks_nil, catMap]
  | cons p ps =>
    rw [renderBlocks_short _ (by simp) h8]
    simp [finishSt, stOf, flush_opcodes, renderBlock]

theorem runPushes_render (ps : List Push) : ∀ (o : List ℕ) (pending : List Push),
    pending.length < 8 →
    (finishSt (runPushes (stOf o pending) ps)).out = o ++ renderBlocks (pending ++ ps) := by
  induction ps with
  | nil =>
    intro o pending h
    simpa using finishSt_stOf o pending (Nat.le_of_lt h)
  | cons pch ps ih =>
    intro o pending h
    rw [runPushes, applyPush_stOf]
    by_cases hlen : pending.length + 1 = 8
    · rw [if_pos hlen]
      rw [ih (o ++ renderBlock (pending ++ [pch])) [] (by simp)]
      have hfull : (pending ++ [pch]).length = 8 := by simp [hlen]
      rw [List.append_cons pending pch ps, renderBlocks_cons8 _ _ hfull]
      simp [List.append_assoc]
    · rw [if_neg hlen]
      rw [ih o (pending ++ [pch]) (by simp at hlen ⊢; omega)]
      rw [List.append_cons pending pch ps]

theorem foldl_applyPush_map (f : α → Push) (l : List α) (st : SavSt) :
    l.foldl (fun s a => applyPush s (f a)) st = runPushes st (l.map f) := by
  induction l generalizing st with
  | nil => simp [runPushes]
  | cons a as ih => simp [runPushes, ih]

theorem writeRowStep_pushes (enc : F64 → List ℕ) (st : SavSt) (pr : SavColType × WValue) :
    writeRowStep enc st pr = runPushes st (valuePushes enc pr) := by
  rcases pr with ⟨ct, v⟩
  cases ct with
  | numeric =>
    cases v with
    | number opt => simp [writeRowStep, valuePushes, push_numeric, runPushes]
    | str bytes => simp [writeRowStep, valuePushes, push_numeric, runPushes]
  | string w =>
    cases v with
    | str bytes =>
      rw [writeRowStep, valuePushes]
      have : ∀ (l : List (List ℕ)) (s : SavSt),
          l.foldl push_string_chunk s = l.foldl (fun s c => applyPush s (stringChunkPush c)) s := by
        intro l
        induction l with
        | nil => intro s; rfl
        | cons c cs ih => intro s; rw [List.foldl, List.foldl, push_string_chunk, ih]
      rw [this, foldl_applyPush_map]
    | number n =>
      rw [writeRowStep, valuePushes]
      have : ∀ (l : List ℕ) (s : SavSt),
          l.foldl (fun s _ => push_opcode s 254) s
            = l.foldl (fun s _ => applyPush s (Push.opc 254)) s := by
        intro l
        induction l with
        | nil => intro s; rfl
        | cons c cs ih => intro s; rw [List.foldl, List.foldl, ih]; rfl
      rw [this, foldl_applyPush_map]

theorem write_row_pushes (enc : F64 → List ℕ) (cols : List ColDef) (st : SavSt)
    (values : List WValue) :
    write_row enc cols st values = runPushes st (rowPushes enc cols values) := by
  rw [write_row, rowPushes]
  generalize (cols.map (fun c => c.col_type)).zip values = pairs
  induction pairs generalizing st with
  | nil => rfl
  | cons pr prs ih =>
    rw [List.foldl, catMap, runPushes_append, ← writeRowStep_pushes, ih]

theorem foldl_write_row (enc : F64 → List ℕ) (cols : List ColDef) (rows : List (List WValue)) :
    ∀ st : SavSt, rows.foldl (write_row enc cols) st
      = runPushes st (catMap (rowPushes enc cols) rows) := by
  induction rows with
  | nil => intro st; rfl
  | cons r rs ih =>
    intro st
    rw [List.foldl, catMap, runPushes_append, ← write_row_pushes, ih]

theorem map_const_range (c : Push) (n : ℕ) :
    (List.range n).map (fun _ => c) = List.replicate n c := by
  induction n with
  | zero => rfl
  | succ k ih => rw [List.range_succ, List.map_append, ih, List.replicate_succ']; rfl

theorem zip_append_left {α β : Type} (l₁ : List α) (l₂ l₃ : List β)
    (h : l₁.length = l₂.length) : l₁.zip (l₂ ++ l₃) = l₁.zip l₂ := by
  induction l₁ generalizing l₂ with
  | nil => simp
  | cons a as ih =>
    cases l₂ with
    | nil => simp at h
    | cons b bs => simp only [List.cons_append, List.zip_cons_cons]; rw [ih bs (by simpa using h)]

/-- C5: the data section is a sequence of 8-byte opcode blocks, each
immediately followed by the raw payloads of that block's OP_RAW opcodes in
emission order; pushing the 8th pending opcode writes the block and its
payloads and clears both buffers; `finish()` pads a partially filled block
with zero bytes, flushes it with its payloads, and flushes the sink (a
no-op for the in-memory sink). -/
theorem c5_data_section_layout :
    (∀ (st : SavSt) (pch : Push), st.opcodeBuf.length = 7 →
      applyPush st pch
        = ⟨st.out ++ ((st.opcodeBuf ++ [pushByte pch]) ++ (st.rawBuf ++ pushPayload pch)),
            [], []⟩)
  ∧ (∀ st : SavSt, 0 < st.opcodeBuf.length →
      finishSt st
        = ⟨st.out ++ ((st.opcodeBuf ++ List.replicate (8 - st.opcodeBuf.length) 0) ++ st.rawBuf),
            [], []⟩)
  ∧ (∀ st : SavSt, st.opcodeBuf.length = 0 → finishSt st = st)
  ∧ (∀ ps : List Push, (finishSt (runPushes initSt ps)).out = renderBlocks ps)
  ∧ (∀ (enc : F64 → List ℕ) (cols : List ColDef) (rows : List (List WValue)),
      (finishSt (rows.foldl (write_row enc cols) initSt)).out
        = renderBlocks (catMap (rowPushes enc cols) rows)) := by
  refine ⟨?_, ?_, ?_, ?_, ?_⟩
  · intro st pch h7
    cases pch with
    | opc b =>
      simp only [applyPush, push_opcode]
      rw [if_pos (by simp [h7])]
      simp [flush_opcodes, h7, pushByte, pushPayload]
    | raw d =>
      simp only [applyPush, push_raw]
      rw [if_pos (by simp [h7])]
      simp [flush_opcodes, h7, pushByte, pushPayload]
  · intro st h
    rw [finishSt, if_pos h, flush_opcodes]
  · intro st h
    rw [finishSt, if_neg (by omega)]
  · intro ps
    have := runPushes_render ps [] [] (by simp)
    simpa [stOf, catMap] using this
  · intro enc cols rows
    rw [foldl_write_row]
    have := runPushes_render (catMap (rowPushes enc cols) rows) [] [] (by simp)
    simpa [stOf, catMap] using this

/-- C5 witness: the theorem applied at concrete states. -/
theorem c5_witness :
    applyPush ⟨[7], [1, 2, 3, 4, 5, 6, 7], [9]⟩ (Push.raw [4, 4])
        = ⟨[7] ++ (([1, 2, 3, 4, 5, 6, 7] ++ [0]) ++ ([9] ++ [4, 4])), [], []⟩
    ∧ finishSt ⟨[], [5], [6]⟩ = ⟨[] ++ (([5] ++ List.replicate 7 0) ++ [6]), [], []⟩ := by
  exact ⟨c5_data_section_layout.1 ⟨[7], [1, 2, 3, 4, 5, 6, 7], [9]⟩ (Push.raw [4, 4]) rfl,
    c5_data_section_layout.2.1 ⟨[], [5], [6]⟩ (by decide)⟩

/-- C2 counterexample: `SavWriter::write_row` does not fail on a variant
mismatch or an arity mismatch.  With one numeric column and a string value
(variant mismatch) it returns normally and writes data for the offending
column (the OP_SYSMIS opcode 255); with one numeric column and an empty
value list (arity mismatch) it returns normally without any error. -/
theorem c2_counterexample :
    write_row (fun _ => []) [⟨asciiBytes "V1", [], SavColType.numeric⟩] initSt
        [WValue.str [120]] = ⟨[], [255], []⟩
    ∧ write_row (fun _ => []) [⟨asciiBytes "V1", [], SavColType.numeric⟩] initSt [] = initSt := by
  constructor
  · rfl
  · rfl

/-- C2 amended: neither writer checks value variants and only the
ReadStat-based writer checks arity.  `SavWriter::write_row` never signals
an error: an empty value list writes nothing, extra values beyond the
column count are ignored, and a variant mismatch writes OP_SPACES opcodes
(string column) or the OP_SYSMIS opcode (numeric column) instead of
failing.  `Writer::write_row` of `readstat_writer.rs` succeeds exactly
when the value count equals the column count. -/
theorem c2_amended (enc : F64 → List ℕ) :
    (∀ (cols : List ColDef) (st : SavSt), write_row enc cols st [] = st)
  ∧ (∀ (cols : List ColDef) (st : SavSt) (values extra : List WValue),
      cols.length = values.length →
      write_row enc cols st (values ++ extra) = write_row enc cols st values)
  ∧ (∀ (st : SavSt) (w : ℕ) (n : Option F64),
      writeRowStep enc st (SavColType.string w, WValue.number n)
        = runPushes st (List.replicate (col_segments (SavColType.string w)) (Push.opc 254)))
  ∧ (∀ (st : SavSt) (bytes : List ℕ),
      writeRowStep enc st (SavColType.numeric, WValue.str bytes)
        = applyPush st (Push.opc 255))
  ∧ (∀ (values : List WValue) (n : ℕ),
      rs_write_row n values = Except.ok () ↔ values.length = n) := by
  refine ⟨?_, ?_, ?_, ?_, ?_⟩
  · intro cols st
    simp [write_row]
  · intro cols st values extra h
    rw [write_row, write_row, zip_append_left _ _ _ (by simpa using h)]
  · intro st w n
    rw [writeRowStep_pushes, valuePushes, map_const_range]
  · intro st bytes
    rfl
  · intro values n
    rw [rs_write_row]
    split
    · rename_i hne
      constructor
      · intro h; exact absurd h (by simp)
      · intro h; exact absurd h hne
    · rename_i he
      simp at he
      simp [he]

/-- C2 witness: the amended theorem applied at concrete inputs. -/
theorem c2_witness :
    write_row (fun _ => []) [⟨[86, 49], [], SavColType.numeric⟩] initSt
        ([WValue.number none] ++ [WValue.number none])
      = write_row (fun _ => []) [⟨[86, 49], [], SavColType.numeric⟩] initSt [WValue.number none]
    ∧ (rs_write_row 1 [WValue.number none] = Except.ok () ↔
        ([WValue.number none] : List WValue).length = 1) := by
  exact ⟨(c2_amended (fun _ => [])).2.1 _ initSt [WValue.number none] [WValue.number none] rfl,
    (c2_amended (fun _ => [])).2.2.2.2 [WValue.number none] 1⟩

theorem strBuffer_length (w : ℕ) (bytes : List ℕ) :
    (strBuffer w bytes).length = col_segments (SavColType.string w) * 8 := by
  simp only [strBuffer, col_segments, List.length_append, List.length_take,
    List.length_replicate]
  omega

theorem chunks8_mem_length (l : List α) (h : 8 ∣ l.length) :
    ∀ c ∈ chunks8 l, c.length = 8 := by
  induction l using chunks8.induct with
  | case1 =>
    intro c hc
    rw [chunks8_nil] at hc
    exact absurd hc (List.not_mem_nil c)
  | case2 a as ih =>
    intro c hc
    rcases h with ⟨k, hk⟩
    have hk' : as.length + 1 = 8 * k := by simpa using hk
    rw [chunks8] at hc
    rcases List.mem_cons.mp hc with hc | hc
    · subst hc
      simp only [List.length_take, List.length_cons]
      omega
    · refine ih ⟨k - 1, ?_⟩ c hc
      simp only [List.length_drop, List.length_cons]
      omega

theorem stringChunkPush_of_length_eight (c : List ℕ) (h : c.length = 8) :
    stringChunkPush c = if c.all (fun b => b == 32) then Push.opc 254 else Push.raw c := by
  rw [stringChunkPush, h]
  simp

theorem chunks8_replicate_spaces (k : ℕ) :
    (chunks8 (List.replicate (k * 8) (32 : ℕ))).map stringChunkPush
      = List.replicate k (Push.opc 254) := by
  induction k with
  | zero => simp [chunks8]
  | succ k' ih =>
    have hsplit : List.replicate ((k' + 1) * 8) (32 : ℕ)
        = List.replicate 8 (32 : ℕ) ++ List.replicate (k' * 8) (32 : ℕ) := by
      rw [← List.replicate_add]
      congr 1
      ring
    rw [hsplit, chunks8_cons8 _ _ (by simp), List.map_cons, ih, List.replicate_succ]
    congr 1

/-- C4: for a string column of declared width `w`, `write_row` materialises
a space-filled buffer of `⌈w/8⌉ × 8` bytes, copies in the first
`min (length field) w` input bytes, and emits one opcode per 8-byte chunk
in order — OP_SPACES (254) for an all-spaces chunk, OP_RAW with the 8-byte
block otherwise; an empty string produces only OP_SPACES opcodes. -/
theorem c4_string_segmentation (enc : F64 → List ℕ) :
    (∀ (w : ℕ) (bytes : List ℕ),
      (strBuffer w bytes).length = col_segments (SavColType.string w) * 8
      ∧ strBuffer w bytes
          = bytes.take (min bytes.length w)
            ++ List.replicate (col_segments (SavColType.string w) * 8 - min bytes.length w) 32)
  ∧ (∀ (st : SavSt) (w : ℕ) (bytes : List ℕ),
      writeRowStep enc st (SavColType.string w, WValue.str bytes)
        = runPushes st ((chunks8 (strBuffer w bytes)).map
            (fun c => if c.all (fun b => b == 32) then Push.opc 254 else Push.raw c)))
  ∧ (∀ (st : SavSt) (w : ℕ),
      writeRowStep enc st (SavColType.string w, WValue.str [])
        = runPushes st (List.replicate (col_segments (SavColType.string w)) (Push.opc 254))) := by
  refine ⟨?_, ?_, ?_⟩
  · intro w bytes
    exact ⟨strBuffer_length w bytes, rfl⟩
  · intro st w bytes
    rw [writeRowStep_pushes, valuePushes]
    congr 1
    refine List.map_congr_left ?_
    intro c hc
    exact stringChunkPush_of_length_eight c
      (chunks8_mem_length _
        ⟨col_segments (SavColType.string w), by rw [strBuffer_length, Nat.mul_comm]⟩ c hc)
  · intro st w
    rw [writeRowStep_pushes, valuePushes]
    congr 1
    have hbuf : strBuffer w [] = List.replicate (col_segments (SavColType.string w) * 8) 32 := by
      simp [strBuffer]
    rw [hbuf, chunks8_replicate_spaces]

theorem headerPrefix_length : headerPrefix.length = 68 := by decide

theorem readLeI32_shift (pre rest : List ℕ) (hpre : pre.length = 68) :
    readLeI32 (pre ++ rest) 68 = readLeI32 rest 0 := by
  rw [readLeI32, readLeI32]
  simp [List.getD_eq_getElem?_getD, List.getElem?_append_right, hpre]

theorem readLeI32_first (v : ℤ) (rest : List ℕ) :
    readLeI32 (write_le_i32 v ++ rest) 0 = readLeI32 (write_le_i32 v) 0 := by
  rw [readLeI32, readLeI32, write_le_i32]
  simp [List.getD_eq_getElem?_getD, List.getElem?_append]

theorem readLeI32_write_le_i32 (v : ℤ) (hlo : -(2 ^ 31) ≤ v) (hhi : v < 2 ^ 31) :
    readLeI32 (write_le_i32 v) 0 = v := by
  rw [readLeI32, write_le_i32]
  simp only [List.getD_cons_zero, List.getD_cons_succ]
  split_ifs <;> omega

theorem castI32_of_lt (u : ℕ) (h : u < 2 ^ 31) : castI32 u = (u : ℤ) := by
  rw [castI32, if_pos (by omega)]
  congr 1
  omega

theorem row_width_replicate_numeric (n : ℕ) :
    row_width (List.replicate n ⟨[], [], SavColType.numeric⟩) = n := by
  rw [row_width, List.map_replicate]
  have : ∀ (k m : ℕ), (List.replicate k (1 : ℕ)).foldl (· + ·) m = m + k := by
    intro k
    induction k with
    | zero => intro m; simp
    | succ k' ih => intro m; rw [List.replicate_succ, List.foldl, ih]; omega
  simpa [col_segments] using this n 0

theorem readLeI32_new_file_bytes (cols : List ColDef) :
    readLeI32 (new_file_bytes cols) 68 = readLeI32 (write_le_i32 (castI32 (row_width cols))) 0 := by
  rw [new_file_bytes, write_header, List.append_assoc, List.append_assoc]
  rw [readLeI32_shift _ _ (by decide)]
  rw [← List.append_assoc]
  exact readLeI32_first _ _

/-- C3 counterexample: with `2 ^ 31` numeric columns the segment sum is
`2 ^ 31`, but the `nominal_case_size` value read back from header offset 68
is `-(2 ^ 31)` — the field is a 32-bit signed integer and `row_width as i32`
wraps, so the field does not equal the segment sum for every column list. -/
theorem c3_counterexample :
    readLeI32 (new_file_bytes (List.replicate (2 ^ 31) ⟨[], [], SavColType.numeric⟩)) 68
        = -(2 ^ 31)
    ∧ (row_width (List.replicate (2 ^ 31) ⟨[], [], SavColType.numeric⟩) : ℤ) = 2 ^ 31
    ∧ ((-(2 ^ 31) : ℤ) ≠ 2 ^ 31) := by
  refine ⟨?_, ?_, by decide⟩
  · rw [readLeI32_new_file_bytes, row_width_replicate_numeric]
    decide
  · rw [row_width_replicate_numeric]
    norm_num

/-- C3 amended: `col_segments` is 1 on numeric columns and `⌈w/8⌉` on
string columns of width `w ∈ [1, 32767]`, and for every column list whose
segment sum is below `2 ^ 31` (the field is a 32-bit signed integer, so
larger sums wrap) the `nominal_case_size` field written at header offset 68
equals the sum of `col_segments` over all columns. -/
theorem c3_amended :
    col_segments SavColType.numeric = 1
  ∧ (∀ w : ℕ, 1 ≤ w → w ≤ 32767 → (col_segments (SavColType.string w) : ℤ) = ⌈(w : ℚ) / 8⌉)
  ∧ (∀ cols : List ColDef, row_width cols < 2 ^ 31 →
      readLeI32 (new_file_bytes cols) 68 = (row_width cols : ℤ)) := by
  refine ⟨rfl, ?_, ?_⟩
  · intro w h1 h2
    rw [col_segments]
    set k : ℕ := (w + 7) / 8 with hk
    have hle : 8 * k ≤ w + 7 := by omega
    have hge : w ≤ 8 * k := by omega
    have hleq : ((8 * k : ℕ) : ℚ) ≤ (w : ℚ) + 7 := by exact_mod_cast hle
    have hgeq : (w : ℚ) ≤ ((8 * k : ℕ) : ℚ) := by exact_mod_cast hge
    push_cast at hleq hgeq
    symm
    rw [Int.ceil_eq_iff]
    constructor
    · rw [lt_div_iff₀ (by norm_num : (0 : ℚ) < 8)]
      push_cast
      linarith
    · rw [div_le_iff₀ (by norm_num : (0 : ℚ) < 8)]
      push_cast
      linarith
  · intro cols h
    rw [readLeI32_new_file_bytes, castI32_of_lt _ h]
    exact readLeI32_write_le_i32 _ (by omega) (by exact_mod_cast h)

/-- C3 witness: the amended theorem applied at width 9 and a two-column
list (one numeric column, one 9-byte string column). -/
theorem c3_witness :
    (col_segments (SavColType.string 9) : ℤ) = ⌈(9 : ℚ) / 8⌉
    ∧ readLeI32 (new_file_bytes [⟨[86, 49], [], SavColType.numeric⟩,
        ⟨[86, 50], [], SavColType.string 9⟩]) 68
      = (row_width [⟨[86, 49], [], SavColType.numeric⟩, ⟨[86, 50], [], SavColType.string 9⟩] : ℤ) := by
  constructor
  · have := c3_amended.2.1 9 (by decide) (by decide)
    simpa using this
  · exact c3_amended.2.2 _ (by decide)

theorem utf8ByteSize_of_empty (s : String) (h : s.data = []) : s.utf8ByteSize = 0 := by
  cases s with
  | mk data =>
    simp only at h
    subst h
    rfl

theorem string_mk_nil : String.mk [] = "" := rfl

theorem observe_foldl_is_numeric (p : String → Bool) (fields : List String) :
    ∀ info : ColInfo, (fields.foldl (ColInfo.observe p) info).is_numeric
      = (info.is_numeric && fields.all (fun f => (rustTrim f).data.isEmpty || p (rustTrim f))) := by
  induction fields with
  | nil => intro info; simp
  | cons f fs ih =>
    intro info
    rw [List.foldl, ih, List.all_cons]
    rw [ColInfo.observe]
    cases he : (rustTrim f).data.isEmpty
    · simp only [he, if_false, Bool.false_or]
      cases info.is_numeric <;> cases p (rustTrim f) <;> simp
    · simp [he]

theorem observe_foldl_max (p : String → Bool) (fields : List String) :
    ∀ info : ColInfo, (fields.foldl (ColInfo.observe p) info).max_byte_len
      = fields.foldl (fun m f => max m (rustTrim f).utf8ByteSize) info.max_byte_len := by
  induction fields with
  | nil => intro info; rfl
  | cons f fs ih =>
    intro info
    rw [List.foldl, List.foldl, ih]
    congr 1
    rw [ColInfo.observe]
    cases he : (rustTrim f).data.isEmpty
    · simp only [he, if_false]
      show (if info.max_byte_len < (rustTrim f).utf8ByteSize then (rustTrim f).utf8ByteSize
        else info.max_byte_len) = _
      split <;> omega
    · rw [if_pos (by simp [he])]
      rw [utf8ByteSize_of_empty _ (by simpa using he)]
      omega

theorem string_empty_iff (s : String) : s = "" ↔ s.data = [] := by
  cases s with
  | mk data =>
    constructor
    · intro h
      rw [show String.mk data = ("" : String) from h]
    · intro h
      have hd : data = [] := h
      subst hd
      rfl

/-- C6: `observe` uses only the whitespace-trimmed field; a field that is
empty after trimming changes nothing; a non-empty trimmed field that fails
the double parse clears `is_numeric`; the final `max_byte_len` is the
maximum trimmed byte length over the observed fields; the final column type
is `Numeric` iff `is_numeric` stayed true (every observed field was blank
or parsed as a double), and otherwise `String (clamp max_byte_len 1 32767)`. -/
theorem c6_observe_and_col_type (p : String → Bool) :
    (∀ (info : ColInfo) (f g : String), rustTrim f = rustTrim g →
      ColInfo.observe p info f = ColInfo.observe p info g)
  ∧ (∀ (info : ColInfo) (f : String), rustTrim f = "" → ColInfo.observe p info f = info)
  ∧ (∀ (info : ColInfo) (f : String), rustTrim f ≠ "" → p (rustTrim f) = false →
      (ColInfo.observe p info f).is_numeric = false)
  ∧ (∀ fields : List String,
      (fields.foldl (ColInfo.observe p) ColInfo.new).max_byte_len
        = (fields.map (fun f => (rustTrim f).utf8ByteSize)).foldl max 0)
  ∧ (∀ fields : List String,
      ((fields.foldl (ColInfo.observe p) ColInfo.new).col_type = SchColType.numeric
        ↔ ∀ f ∈ fields, rustTrim f = "" ∨ p (rustTrim f) = true))
  ∧ (∀ info : ColInfo, info.is_numeric = false →
      info.col_type = SchColType.string (min (max info.max_byte_len 1) 32767)) := by
  have hiff : ∀ f : String, ((rustTrim f).data.isEmpty || p (rustTrim f)) = true
      ↔ (rustTrim f = "" ∨ p (rustTrim f) = true) := by
    intro f
    rw [Bool.or_eq_true, List.isEmpty_iff, ← string_empty_iff]
  refine ⟨?_, ?_, ?_, ?_, ?_, ?_⟩
  · intro info f g h
    rw [ColInfo.observe, ColInfo.observe, h]
  · intro info f h
    rw [ColInfo.observe, if_pos (by simp [(string_empty_iff _).mp h])]
  · intro info f h hp
    rw [ColInfo.observe]
    rw [if_neg (fun hd => h ((string_empty_iff _).mpr (by simpa using hd)))]
    show (if (info.is_numeric && !p (rustTrim f)) = true then false else info.is_numeric) = false
    rw [hp]
    cases hn : info.is_numeric <;> simp [hn]
  · intro fields
    rw [observe_foldl_max, List.foldl_map]
    rfl
  · intro fields
    have hch := observe_foldl_is_numeric p fields ColInfo.new
    rw [show ColInfo.new.is_numeric = true from rfl, Bool.true_and] at hch
    rw [ColInfo.col_type]
    constructor
    · intro hq
      by_cases hn : (fields.foldl (ColInfo.observe p) ColInfo.new).is_numeric = true
      · rw [hn] at hch
        intro f hf
        exact (hiff f).mp (List.all_eq_true.mp hch.symm f hf)
      · rw [if_neg hn] at hq
        exact absurd hq (by simp)
    · intro hall
      have hn : (fields.foldl (ColInfo.observe p) ColInfo.new).is_numeric = true := by
        rw [hch]
        exact List.all_eq_true.mpr (fun f hf => (hiff f).mpr (hall f hf))
      rw [if_pos hn]
  · intro info h
    rw [ColInfo.col_type, if_neg (by simp [h]), MAX_STRING_WIDTH]

/-- C6 witness: the theorem applied at a concrete parse function and
concrete fields. -/
theorem c6_witness :
    ColInfo.observe (fun _ => true) ColInfo.new " " = ColInfo.new
    ∧ (ColInfo.observe (fun _ => false) ColInfo.new "xy").is_numeric = false
    ∧ (["a", "bcd"].foldl (ColInfo.observe (fun _ => true)) ColInfo.new).max_byte_len
        = (["a", "bcd"].map (fun f => (rustTrim f).utf8ByteSize)).foldl max 0 := by
  refine ⟨?_, ?_, ?_⟩
  · exact (c6_observe_and_col_type (fun _ => true)).2.1 ColInfo.new " " (by decide)
  · exact (c6_observe_and_col_type (fun _ => false)).2.2.1 ColInfo.new "xy" (by decide) rfl
  · exact (c6_observe_and_col_type (fun _ => true)).2.2.2.1 ["a", "bcd"]

/-- C9: once `is_numeric` has become false it stays false under every
further sequence of `observe` calls. -/
theorem c9_is_numeric_monotone (p : String → Bool) (fields : List String) (info : ColInfo)
    (h : info.is_numeric = false) :
    (fields.foldl (ColInfo.observe p) info).is_numeric = false := by
  rw [observe_foldl_is_numeric, h, Bool.false_and]

/-- C9 witness: the theorem applied at a concrete state and field list. -/
theorem c9_witness :
    ((["3", "4"].foldl (ColInfo.observe (fun _ => true)) ⟨false, 2⟩)).is_numeric = false := by
  exact c9_is_numeric_monotone (fun _ => true) ["3", "4"] ⟨false, 2⟩ rfl

theorem inferLoop_count_le (p : String → Bool) (sample : ℕ) (rs : List (List String)) :
    ∀ (n : ℕ) (infos : List ColInfo),
      (inferLoop p sample rs n infos).2 ≤ max (n + 1) sample := by
  induction rs with
  | nil =>
    intro n infos
    simp only [inferLoop]
    omega
  | cons r rs' ih =>
    intro n infos
    rw [inferLoop]
    by_cases hstop : sample ≤ n + 1
    · rw [if_pos hstop]
      simp only
      omega
    · rw [if_neg hstop]
      have := ih (n + 1) (observeRecord p infos r)
      omega

theorem inferLoop_count_le_records (p : String → Bool) (sample : ℕ) (rs : List (List String)) :
    ∀ (n : ℕ) (infos : List ColInfo),
      (inferLoop p sample rs n infos).2 ≤ n + rs.length := by
  induction rs with
  | nil =>
    intro n infos
    simp [inferLoop]
  | cons r rs' ih =>
    intro n infos
    rw [inferLoop]
    by_cases hstop : sample ≤ n + 1
    · rw [if_pos hstop]
      simp only [List.length_cons]
      omega
    · rw [if_neg hstop]
      have := ih (n + 1) (observeRecord p infos r)
      simp only [List.length_cons]
      omega

/-- C8 counterexample: with `sample_rows = 0` the loop still observes the
first record (the stop check `sampled_rows >= sample_rows` runs only after
a record has been counted and observed), so `infer_schema` observes one
record, not at most zero. -/
theorem c8_counterexample :
    (inferInfos (fun _ => true) 0 ["a"] [["x"]]).2 = 1
    ∧ (inferInfos (fun _ => true) 0 ["a"] [["x"]]).1 = [⟨true, 1⟩]
    ∧ ¬ ((1 : ℕ) ≤ 0) := by
  refine ⟨by decide, by decide, by decide⟩

/-- C8 amended: for every source and every `sample_rows` (including 0),
`infer_schema` observes at most `max 1 sample_rows` data records after the
header row, and never more records than the source has. -/
theorem c8_amended (p : String → Bool) (sample : ℕ) (headers : List String)
    (records : List (List String)) :
    (inferInfos p sample headers records).2 ≤ max 1 sample
    ∧ (inferInfos p sample headers records).2 ≤ records.length := by
  constructor
  · have := inferLoop_count_le p sample records 0 (List.replicate headers.length ColInfo.new)
    simpa [inferInfos] using this
  · have := inferLoop_count_le_records p sample records 0 (List.replicate headers.length ColInfo.new)
    simpa [inferInfos] using this

/-- C7 amended: a header appears in `truncated_cols` iff its column ended
non-numeric *and* its observed `max_byte_len` exceeds 32767 (a column whose
every sampled field parses as a double stays `Numeric` and is not recorded,
however long its fields are). -/
theorem c7_truncated_cols_iff (headers : List String) (infos : List ColInfo) (h : String) :
    h ∈ truncated_cols headers infos
      ↔ ∃ pr ∈ headers.zip infos, pr.1 = h ∧ pr.2.is_numeric = false
          ∧ MAX_STRING_WIDTH < pr.2.max_byte_len := by
  rw [truncated_cols]
  simp only [List.mem_map, List.mem_filter, Bool.and_eq_true, Bool.not_eq_true',
    decide_eq_true_eq]
  constructor
  · rintro ⟨pr, ⟨hmem, hnum, hlen⟩, heq⟩
    exact ⟨pr, hmem, heq, hnum, hlen⟩
  · rintro ⟨pr, hmem, heq, hnum, hlen⟩
    exact ⟨pr, ⟨hmem, hnum, hlen⟩, heq⟩

theorem dropWhile_ws_replicate_one (n : ℕ) :
    (List.replicate n '1').dropWhile Char.isWhitespace = List.replicate n '1' := by
  cases n with
  | zero => rfl
  | succ k =>
    rw [List.replicate_succ, List.dropWhile_cons]
    simp

theorem rustTrim_longDigits : rustTrim longDigits = longDigits := by
  rw [longDigits, rustTrim]
  show (⟨((List.replicate 32768 '1').dropWhile Char.isWhitespace).reverse.dropWhile
      Char.isWhitespace |>.reverse⟩ : String) = _
  rw [dropWhile_ws_replicate_one, List.reverse_replicate, dropWhile_ws_replicate_one,
    List.reverse_replicate]

theorem go_replicate_one (n : ℕ) : String.utf8ByteSize.go (List.replicate n '1') = n := by
  induction n with
  | zero => rfl
  | succ k ih =>
    rw [List.replicate_succ]
    show String.utf8ByteSize.go (List.replicate k '1') + ('1').utf8Size = k + 1
    rw [ih, show ('1').utf8Size = 1 from rfl]

theorem utf8ByteSize_longDigits : longDigits.utf8ByteSize = 32768 := by
  rw [longDigits]
  show String.utf8ByteSize.go (List.replicate 32768 '1') = 32768
  exact go_replicate_one 32768

theorem observe_longDigits (info : ColInfo) :
    ColInfo.observe (fun _ => true) info longDigits
      = ⟨info.is_numeric, if info.max_byte_len < 32768 then 32768 else info.max_byte_len⟩ := by
  rw [ColInfo.observe, rustTrim_longDigits]
  rw [if_neg (by rw [longDigits]; simp)]
  rw [utf8ByteSize_longDigits]
  cases hn : info.is_numeric <;> simp [hn]

/-- C7 counterexample: one column whose single field is 32768 digit-one
bytes.  Rust's `str::parse::<f64>` accepts that field (its value overflows
to `+∞`, which `parse` still returns as `Ok`), so `is_numeric` stays true:
the observed maximum trimmed byte length 32768 exceeds 32767, yet
`truncated_cols` is empty — membership is not equivalent to
`max_byte_len > 32767` alone. -/
theorem c7_counterexample :
    (inferInfos (fun _ => true) 1 ["c"] [[longDigits]]).1 = [⟨true, 32768⟩]
    ∧ truncated_cols ["c"] [⟨true, 32768⟩] = []
    ∧ MAX_STRING_WIDTH < 32768 := by
  refine ⟨?_, by decide, by decide⟩
  rw [inferInfos, inferLoop]
  rw [if_pos (by omega)]
  show observeRecord (fun _ => true) (List.replicate 1 ColInfo.new) [longDigits] = _
  rw [show List.replicate 1 ColInfo.new = [ColInfo.new] from rfl]
  rw [observeRecord, observeRecord, observe_longDigits]
  rfl

/-- C10: for a non-finite value (NaN or an infinity) `push_numeric` is
total and selects OP_RAW with the 8 little-endian bytes of `n` — never an
inline opcode and never OP_SYSMIS: `shifted = n + 100.0` is non-finite, so
the inline-opcode comparison chain is false. -/
theorem c10_nonfinite_raw (enc : F64 → List ℕ) (st : SavSt) (n : F64)
    (h : n = F64.nan ∨ n = F64.posInf ∨ n = F64.negInf) :
    numericPush enc (some n) = Push.raw (enc n)
    ∧ push_numeric enc st (some n) = push_raw st (enc n) := by
  have hp : numericPush enc (some n) = Push.raw (enc n) := by
    rcases h with h | h | h <;> subst h <;> rfl
  exact ⟨hp, by rw [push_numeric, hp]; rfl⟩

/-- C10 witness: the theorem applied at NaN with a concrete byte encoder
and state. -/
theorem c10_witness :
    numericPush (fun _ => [1, 2, 3, 4, 5, 6, 7, 8]) (some F64.nan)
        = Push.raw [1, 2, 3, 4, 5, 6, 7, 8]
    ∧ push_numeric (fun _ => [1, 2, 3, 4, 5, 6, 7, 8]) initSt (some F64.nan)
        = push_raw initSt [1, 2, 3, 4, 5, 6, 7, 8] := by
  exact c10_nonfinite_raw (fun _ => [1, 2, 3, 4, 5, 6, 7, 8]) initSt F64.nan (Or.inl rfl)

/-- C1 counterexample: for the representable double `n = 1 + 2⁻⁵²`
(the binary64 successor of 1.0, `roundF64 epsNum = epsNum` below), the
binary64 sum `n + 100` rounds to exactly `101.0`, so `push_numeric` emits
the single opcode byte 101; the reader decodes opcode 101 as `1.0 ≠ n`.
The claimed round-trip therefore fails. -/
theorem c1_counterexample :
    numericPush (fun _ => []) (some (F64.finite epsNum)) = Push.opc 101
    ∧ decode_push (fun _ => F64.nan) (Push.opc 101) = some (F64.finite 1)
    ∧ F64.finite (1 : ℚ) ≠ F64.finite epsNum
    ∧ roundF64 epsNum = F64.finite epsNum
    ∧ epsNum = 1 + 1 / 4503599627370496 := by
  refine ⟨by decide, by decide, by decide, by decide, ?_⟩
  rw [epsNum, Rat.mkRat_eq_div]
  norm_num

/-- C1 amended: writing `fl` for binary64 rounding, `push_numeric` on a
finite `n` emits the single opcode byte `fl(n + 100) as u8` exactly when
`fl(n + 100)` lies in `[1, 251]` and has zero fractional part, and
otherwise OP_RAW with the bytes of `n`.  Decoding under the reader's rules
yields: in the OP_RAW case exactly `n` (the byte codec inverts); in the
inline case `fl(n + 100) − 100`, which equals `n` exactly when the
addition `n + 100` was exact — in particular for every integer `n` in
`[-99, 151]` — but not for every finite `n` (see the counterexample). -/
theorem c1_opcode_roundtrip (enc : F64 → List ℕ) (dec : List ℕ → F64) (q s : ℚ)
    (hs : addF64 (F64.finite q) (F64.finite 100) = F64.finite s) :
    (shiftCond (F64.finite s) = true →
        numericPush enc (some (F64.finite q)) = Push.opc s.num.toNat
      ∧ (1 ≤ s.num.toNat ∧ s.num.toNat ≤ 251)
      ∧ decode_push dec (Push.opc s.num.toNat) = some (F64.finite (s - 100))
      ∧ (s = q + 100 → F64.finite (s - 100) = F64.finite q))
  ∧ (shiftCond (F64.finite s) = false →
        numericPush enc (some (F64.finite q)) = Push.raw (enc (F64.finite q))
      ∧ (dec (enc (F64.finite q)) = F64.finite q →
          decode_push dec (Push.raw (enc (F64.finite q))) = some (F64.finite q)))
  ∧ (s = q + 100 ↔ roundF64 (q + 100) = F64.finite (q + 100)) := by
  have hnp : numericPush enc (some (F64.finite q))
      = if shiftCond (F64.finite s) then Push.opc (toU8Sat (F64.finite s))
        else Push.raw (enc (F64.finite q)) := by
    simp only [numericPush]
    rw [hs]
  have hround : roundF64 (q + 100) = F64.finite s := by
    rw [← qAdd_eq]
    exact hs
  refine ⟨?_, ?_, ?_⟩
  · intro hcond
    have hparts := hcond
    rw [shiftCond, Bool.and_eq_true, Bool.and_eq_true] at hparts
    obtain ⟨⟨hge, hle⟩, hfr⟩ := hparts
    rw [fge, fle] at hge
    rw [fle] at hle
    have h1 : (1 : ℚ) ≤ s := by simpa [fle] using hge
    have h2 : s ≤ (251 : ℚ) := by simpa [fle] using hle
    have hint : s = ((ratTrunc s : ℤ) : ℚ) := by
      have : qSub s ((ratTrunc s : ℤ) : ℚ) = 0 := by simpa [feq, fractF64] using hfr
      rw [qSub_eq] at this
      linarith [this]
    set k : ℤ := ratTrunc s with hk
    have hk1 : (1 : ℤ) ≤ k := by exact_mod_cast hint ▸ h1
    have hk2 : k ≤ 251 := by exact_mod_cast hint ▸ h2
    have hnum : s.num = k := by rw [hint]; exact Rat.intCast_num k
    have htoU8 : toU8Sat (F64.finite s) = k.toNat := by
      rw [toU8Sat]
      show (if ratTrunc s < 0 then (0 : ℕ) else if (255 : ℤ) < ratTrunc s then 255
        else (ratTrunc s).toNat) = k.toNat
      rw [← hk, if_neg (by omega), if_neg (by omega)]
    have hcast : ((k.toNat : ℤ)) = k := Int.toNat_of_nonneg (by omega)
    refine ⟨?_, ⟨by omega, by omega⟩, ?_, ?_⟩
    · rw [hnp, if_pos hcond, htoU8, hnum]
    · rw [decode_push, hnum]
      rw [if_pos (by constructor <;> omega)]
      congr 1
      congr 1
      rw [Rat.mkRat_one]
      rw [hcast]
      push_cast
      rw [← hint]
    · intro hexact
      rw [hexact]
      congr 1
      ring
  · intro hcond
    refine ⟨by rw [hnp, if_neg (by simp [hcond])], ?_⟩
    intro hdec
    rw [decode_push, hdec]
  · constructor
    · intro h
      have h2 := hround
      rw [h] at h2
      exact h2
    · intro h
      have := hround.symm.trans h
      exact (F64.finite.injEq s (q + 100)) ▸ this

/-- C1 witness: the amended theorem applied at the integer `n = 1`:
the emission is the single opcode 101 and decoding returns exactly 1. -/
theorem c1_witness :
    numericPush (fun _ => [0]) (some (F64.finite 1)) = Push.opc 101
    ∧ decode_push (fun _ => F64.nan) (Push.opc 101) = some (F64.finite 1) := by
  have h := c1_opcode_roundtrip (fun _ => [0]) (fun _ => F64.nan) 1 101 (by decide)
  have h1 := h.1 (by decide)
  have hn : ((101 : ℚ)).num.toNat = 101 := by decide
  constructor
  · exact hn ▸ h1.1
  · have hd := hn ▸ h1.2.2.1
    have he : (101 - 100 : ℚ) = 1 := by norm_num
    rw [he] at hd
    exact hd

end Csv2Sav
